import Mathlib

/-!
Verification development for the `swordle` repository: a Wordle simulator
(`wordle_solver/simulator.py`, class `WordleSimulator`) and a hard-mode solver
(`wordle_solver/solvers/hard_mode.py`, class `HardModeSolver`).

The Python code is shallowly embedded: strings become `String`/`List Char`,
the pandas dataframe of candidate words becomes a list of entries carrying the
`word` and `no_green_word` columns, the `green_letters` dict becomes an
association list, and fallible code (Python `IndexError` on out-of-range
indexing) returns `Option`.  Derived dataframe columns (`letter_i`, `count_i`,
`across_i`, `repeat_i` and the three scores), which `wordbank_features`
recomputes in full from `word`/`no_green_word`/`green_letters` after every
mutation, are embedded as functions of the pool and the green map.
-/

namespace Swordle

/-- The `'_'` blank marker used by the simulator (`filtered_word[i] = '_'`)
and the solver (`no_green_word`, skipped `letter_i` columns). -/
def blank : Char := '_'

/-- Python string indexing `s[i]` for indices that are in range in every use;
the default is never reached in the places this definition is applied. -/
def charAt (s : String) (i : Nat) : Char := s.data.getD i blank

/-- An ASCII lowercase letter. -/
def lowerChar (c : Char) : Prop := 'a' ≤ c ∧ c ≤ 'z'

/-- A word made of ASCII lowercase letters. -/
def lowerWord (s : String) : Prop := ∀ c ∈ s.data, lowerChar c

instance : DecidablePred lowerChar :=
  fun c => inferInstanceAs (Decidable ('a' ≤ c ∧ c ≤ 'z'))

instance : DecidablePred lowerWord :=
  fun s => inferInstanceAs (Decidable (∀ c ∈ s.data, lowerChar c))

/-!
## `WordleSimulator._result` (simulator.py:147-169)

Pass 1 walks `enumerate(guess)` and tests `guess_letter == self.word[i]`
(raising `IndexError` when the guess is longer than the hidden word, hence
`Option`): a match marks the position green (`result[i] = 'G'`, embedded as a
`none` marker) and blanks `filtered_word[i]`; a non-match keeps the guess
letter as the pending entry (Python keeps `result[i] = guess[i]` and records
`i` in `not_green_i`).  Pass 2 visits the pending positions left to right
(`for i in not_green_i`): if the guess letter is in `filtered_word` it marks
`'Y'` and blanks the first (leftmost) occurrence (`y_filter = [j for j in
range(len(word)) if guess[i] == filtered_word[j]][0]`), else it marks `'K'`.
-/

/-- Pass 1 of `_result`: returns the marker list (one entry per guess letter:
`none` for green, `some c` for a pending guess letter `c`) and `filtered_word`
(the hidden word with green positions blanked; when the guess is shorter, the
tail of the hidden word is kept unblanked, as in the Python copy). -/
def pass1 : List Char → List Char → Option (List (Option Char) × List Char)
  | word, [] => some ([], word)
  | [], _ :: _ => none
  | wc :: ws, gc :: gs =>
    match pass1 ws gs with
    | none => none
    | some (res, filt) =>
      if gc = wc then some (none :: res, blank :: filt)
      else some (some gc :: res, wc :: filt)

/-- Blank the first occurrence of `c` (the `y_filter` assignment of
`_result`: the leftmost `j` with `filtered_word[j] == guess[i]`). -/
def blankFirst : List Char → Char → List Char
  | [], _ => []
  | x :: xs, c => if x = c then blank :: xs else x :: blankFirst xs c

/-- Pass 2 of `_result`: walk the pending markers left to right, threading
`filtered_word`. -/
def pass2 : List (Option Char) → List Char → List Char
  | [], _ => []
  | none :: rest, filt => 'G' :: pass2 rest filt
  | some gc :: rest, filt =>
    if gc ∈ filt then 'Y' :: pass2 rest (blankFirst filt gc)
    else 'K' :: pass2 rest filt

/-- `WordleSimulator._result(guess)` with hidden word `word`: the feedback
string over `G`/`Y`/`K`, or `none` for the `IndexError` raised when the guess
is longer than the hidden word. -/
def wsResult (word guess : String) : Option String :=
  match pass1 word.data guess.data with
  | none => none
  | some (res, filt) => some (String.mk (pass2 res filt))

/-!
## Reference scorer (from the specification's words)

Two-pass multiset algorithm: pass 1 marks EXACT matches and removes the
matched occurrence from the hidden-word multiset; pass 2 visits the remaining
positions left to right, marking PRESENT (removing one occurrence) when the
guessed letter still has a remaining occurrence, ABSENT otherwise.  The
multiset is carried as a `List Char` with `List.erase` as removal; EXACT,
PRESENT and ABSENT are rendered with the same `G`/`Y`/`K` letters the
simulator uses.
-/

/-- Reference pass 1: feedback markers (`none` = EXACT) plus the multiset of
hidden-word letters not claimed by an EXACT match. -/
def refPass1 : List Char → List Char → List (Option Char) × List Char
  | hc :: hs, gc :: gs =>
    let p := refPass1 hs gs
    if gc = hc then (none :: p.1, p.2) else (some gc :: p.1, hc :: p.2)
  | _, _ => ([], [])

/-- Reference pass 2: left to right over the non-EXACT positions, PRESENT and
remove one occurrence if the letter remains in the multiset, else ABSENT. -/
def refPass2 : List (Option Char) → List Char → List Char
  | [], _ => []
  | none :: rest, ms => 'G' :: refPass2 rest ms
  | some gc :: rest, ms =>
    if gc ∈ ms then 'Y' :: refPass2 rest (ms.erase gc)
    else 'K' :: refPass2 rest ms

/-- The specification's reference scorer. -/
def refScore (hidden guess : String) : String :=
  let p := refPass1 hidden.data guess.data
  String.mk (refPass2 p.1 p.2)

/-!
## `HardModeSolver` state (hard_mode.py)

A pool row keeps the two persistent dataframe columns `word` and
`no_green_word`; `green_letters` is the dict position → letter.  The derived
columns that `wordbank_features` rebuilds after every change (`letter_i`,
`count_i`, `across_i`, `repeat_i`, the scores) appear below as functions of
the pool and green map; note `letter_{i+1}` holds `'_'` for a green position
and `word[i]` otherwise, which is what `letterCol` computes.
-/

/-- One row of `self.wordbank`: the `word` and `no_green_word` columns. -/
structure Entry where
  word : String
  ngw : String
deriving DecidableEq

/-- The persistent state of a `HardModeSolver`. -/
structure SolverState where
  pool : List Entry
  green : List (Nat × Char)
  guesses : List String
  results : List String
deriving DecidableEq

/-- The state a *completed* `HardModeSolver.reset()` produces (hard_mode.py:
27-35), with the word list the `pkg_resources` stream yielded passed in
explicitly (file I/O is external): the whole list is loaded as-is — no
length filter — `no_green_word` is initialised to `word`, and
`green_letters`, `guesses` and `results` are cleared.  `resetOpt` below
models the full call including its error path. -/
def resetState (allWords : List String) : SolverState :=
  { pool := allWords.map (fun w => { word := w, ngw := w }),
    green := [], guesses := [], results := [] }

/-- `HardModeSolver.reset()` in full: after loading the bank and clearing
`green_letters`, it calls `wordbank_features()` (hard_mode.py:33), which
evaluates `self.wordbank.word.apply(lambda x: x[i])` for every position
`i < n_letters` (hard_mode.py:59) — raising `IndexError` as soon as some
loaded word is shorter than `n_letters`, modelled as `none`.  That raise
happens *before* `self.guesses`/`self.results` are cleared (lines 34-35), so
on the error path the histories are not cleared.  When every word has at
least `n_letters` letters the call completes with the `resetState` state;
words *longer* than `n_letters` are not filtered out (no `x[i]` overruns
them). -/
def resetOpt (allWords : List String) (n : Nat) : Option SolverState :=
  if ∀ w ∈ allWords, n ≤ w.length then some (resetState allWords) else none

/-- The derived `letter_{i+1}` column of a row (hard_mode.py:55-68): `'_'`
when position `i` is green, else `word[i]`. -/
def letterCol (green : List (Nat × Char)) (e : Entry) (i : Nat) : Char :=
  if (green.lookup i).isSome then blank else charAt e.word i

/-- pandas `Series.str.slice_replace(i, i+1, '_')`: `s[:i] + '_' + s[i+1:]`
(for `i` past the end this appends the blank, exactly as in pandas). -/
def sliceReplaceBlank (s : String) (i : Nat) : String :=
  String.mk (s.data.take i ++ [blank] ++ s.data.drop (i + 1))

/-- One iteration of the filtering loop of `HardModeSolver.load_result`
(hard_mode.py:124-140) at position `i`: skip green positions; on `'G'` keep
rows whose `letter_{i+1}` equals the guess letter, record the green and blank
that position of `no_green_word`; on `'K'` keep rows whose `no_green_word`
does not contain the letter; otherwise (the yellow branch) keep rows whose
`no_green_word` contains the letter but whose `letter_{i+1}` is not it. -/
def loadStep (guess result : String) (st : SolverState) (i : Nat) : SolverState :=
  let g := charAt guess i
  let r := charAt result i
  if (st.green.lookup i).isSome then st
  else if r = 'G' then
    { st with
      pool := (st.pool.filter (fun e => letterCol st.green e i == g)).map
        (fun e => { e with ngw := sliceReplaceBlank e.ngw i }),
      green := st.green ++ [(i, g)] }
  else if r = 'K' then
    { st with pool := st.pool.filter (fun e => !(e.ngw.data.contains g)) }
  else
    { st with
      pool := st.pool.filter (fun e => e.ngw.data.contains g && letterCol st.green e i != g) }

/-- `HardModeSolver.load_result(result)` (hard_mode.py:107-143) with
`last_guess = self.guesses[-1]` passed explicitly: append the feedback to
`results`, then run the filtering loop over `zip(last_guess, result)` —
positions `0 ≤ i < min(len(guess), len(result))`, left to right.  There is no
length check and no emptiness check. -/
def loadResult (st : SolverState) (guess result : String) : SolverState :=
  (List.range (min guess.length result.length)).foldl (loadStep guess result)
    { st with results := st.results ++ [result] }

/-!
## Derived features and scores (hard_mode.py:50-104)
-/

/-- `self.letter_counts[letter_{i+1}][c]` — the Counter of column
`letter_{i+1}`: empty for a green position, else the number of pool rows with
letter `c` at position `i`. -/
def letterCount (pool : List Entry) (green : List (Nat × Char)) (i : Nat) (c : Char) : Nat :=
  if (green.lookup i).isSome then 0
  else (pool.filter (fun e => charAt e.word i == c)).length

/-- The `across` dict (hard_mode.py:71-78): per-letter counts accumulated over
every position's Counter (starting from `{'_': 0}`, so the blank maps to the
accumulated count of blanks, which is 0 for well-formed pools). -/
def acrossCount (pool : List Entry) (green : List (Nat × Char)) (n : Nat) (c : Char) : Nat :=
  ((List.range n).map (fun i => letterCount pool green i c)).sum

/-- The `repeat_{i+1}` column (hard_mode.py:81-86): whether `letter_{i+1}`
equals some earlier `letter_{j+1}`, `j < i` (`repeat_1` is always false). -/
def isRepeat (green : List (Nat × Char)) (e : Entry) (i : Nat) : Bool :=
  (List.range i).any (fun j => letterCol green e j == letterCol green e i)

/-- `across_score` (hard_mode.py:97-101): sum over positions of
`across_{i+1} * ¬repeat_{i+1}`, where `across_{i+1}` maps `letter_{i+1}`
through the `across` dict. -/
def acrossScore (pool : List Entry) (green : List (Nat × Char)) (n : Nat) (e : Entry) : Nat :=
  ((List.range n).map (fun i =>
    if isRepeat green e i then 0 else acrossCount pool green n (letterCol green e i))).sum

/-- `inplace_score` (hard_mode.py:94): sum over positions of `count_{i+1}`
(the row's own letter's positional count; 0 at green positions). -/
def inplaceScore (pool : List Entry) (green : List (Nat × Char)) (n : Nat) (e : Entry) : Nat :=
  ((List.range n).map (fun i => letterCount pool green i (letterCol green e i))).sum

/-- The configured ranking mode (`score` constructor argument). -/
inductive ScoreMode where
  | inplace
  | across
  | combined
deriving DecidableEq

/-- `{mode}_score` of a row (`combined_score = inplace_score + across_score`,
hard_mode.py:104). -/
def scoreOf (pool : List Entry) (green : List (Nat × Char)) (n : Nat) :
    ScoreMode → Entry → Nat
  | .inplace, e => inplaceScore pool green n e
  | .across, e => acrossScore pool green n e
  | .combined, e => inplaceScore pool green n e + acrossScore pool green n e

/-!
## `HardModeSolver.guess` (hard_mode.py:42-48)

`self.wordbank.sort_values(by=f'{score}_score', ascending=False).iloc[0,0]`.
pandas `sort_values` on one column calls `nargsort`, which computes an
ascending `argsort` of the key column (numpy's default kind `quicksort`,
i.e. introsort) and, for `ascending=False`, reverses the whole indexer
(`indexer = indexer[::-1]`).  numpy's argsort is stable only in its
insertion-sort regime (small arrays and partitions, below a cutoff of about
16 elements); on larger arrays the relative order of tied keys is
unspecified.  The model below is a stable insertion sort followed by
`List.reverse`: it is exact on the small pools appearing in the concrete
statements, and on any pool it agrees with the code up to the order of tied
keys — so the universally quantified theorems about `guessWord` assert only
tie-order-independent facts (pool membership and score maximality). -/

/-- Stable ascending insertion of a row by key `f` (ties keep the earlier row
first). -/
def insertAsc (f : Entry → Nat) (e : Entry) : List Entry → List Entry
  | [] => [e]
  | x :: xs => if f e ≤ f x then e :: x :: xs else x :: insertAsc f e xs

/-- Stable ascending sort by key `f`. -/
def sortAsc (f : Entry → Nat) : List Entry → List Entry
  | [] => []
  | e :: es => insertAsc f e (sortAsc f es)

/-- pandas `sort_values(by=key, ascending=False)`: reverse of the ascending
argsort order, with the argsort taken stable (exact in numpy's
insertion-sort regime; up to tie order otherwise — see the section comment
above). -/
def sortValuesDesc (f : Entry → Nat) (l : List Entry) : List Entry :=
  (sortAsc f l).reverse

/-- The word `HardModeSolver.guess` returns: first row, first column
(`iloc[0,0]` is the `word` column) of the descending sort; `none` for the
`IndexError` on an empty pool. -/
def guessWord (mode : ScoreMode) (n : Nat) (st : SolverState) : Option String :=
  ((sortValuesDesc (scoreOf st.pool st.green n mode) st.pool).head?).map Entry.word

/-!
## Spec-side definitions (written from the claims' words, for comparison)
-/

/-- The maximum-score row, ties broken toward the row that comes first in the
list — the tie-breaking rule the specification states for `bestGuess`. -/
def argmaxFirst (f : Entry → Nat) : List Entry → Option Entry
  | [] => none
  | e :: es =>
    match argmaxFirst f es with
    | none => some e
    | some b => if f b > f e then some b else some e

/-- The maximum-score row, ties broken toward the row that comes last in the
list (what reversing a stable ascending sort yields). -/
def argmaxLast (f : Entry → Nat) : List Entry → Option Entry
  | [] => none
  | e :: es =>
    match argmaxLast f es with
    | none => some e
    | some b => if f e > f b then some e else some b

/-- `across_score` as the claim words it: sum over non-locked positions of the
letter's global across-position frequency, counting each distinct letter only
once, at its leftmost (non-locked) occurrence. -/
def specAcrossScore (pool : List Entry) (green : List (Nat × Char)) (n : Nat) (e : Entry) :
    Nat :=
  ((List.range n).map (fun i =>
    if green.lookup i = none ∧
        (∀ j ∈ List.range i, green.lookup j = none → charAt e.word j ≠ charAt e.word i)
    then acrossCount pool green n (charAt e.word i) else 0)).sum

/-- Blank every green position of a character list, positions counted from
`p`. -/
def maskList (green : List (Nat × Char)) : List Char → Nat → List Char
  | [], _ => []
  | c :: cs, p => (if (green.lookup p).isSome then blank else c) :: maskList green cs (p + 1)

/-- A word with its green positions blanked — the value the `no_green_word`
column holds in every reachable solver state. -/
def maskG (green : List (Nat × Char)) (w : String) : String :=
  String.mk (maskList green w.data 0)

/-- Fold a sequence of (guess, feedback) pairs through `load_result`. -/
def applyPairs (st : SolverState) (gs : List (String × String)) : SolverState :=
  gs.foldl (fun s gf => loadResult s gf.1 gf.2) st

/-- Invariant of the soundness analysis for hidden word `h` and current guess
`g`: the hidden word is still in the pool with a correctly de-greened
`no_green_word`, and every locked position agrees with both the hidden word
and the guess. -/
def C1Inv (h g : String) (n : Nat) (st : SolverState) : Prop :=
  (∃ e ∈ st.pool, e.word = h ∧ e.ngw = maskG st.green h) ∧
    (∀ p c, st.green.lookup p = some c → p < n ∧ charAt h p = c ∧ charAt g p = c)

/-!
## `WordleSimulator` (simulator.py:23-145)

State of a simulator; the presentation-only `chosen_alphabet` dict, the block
colour tables and `verbose` printing are elided (they feed `print` only).
-/

structure SimState where
  word : String
  nGuesses : Nat
  maxGuesses : Nat
  results : List String
  unicodeResults : List String
  alphaBlocksResults : List String
  done : Bool
deriving DecidableEq

/-- `self.blocks_unicode` (simulator.py:38-42), a dict keyed by `G`/`Y`/`K`;
any other key raises `KeyError`. -/
def blockUnicode : Char → Option Char
  | 'G' => some (Char.ofNat 0x1F7E9)
  | 'Y' => some (Char.ofNat 0x1F7E8)
  | 'K' => some (Char.ofNat 0x2B1B)
  | _ => none

/-- `self.blocks_cc` (simulator.py:43-47), the ANSI colour codes. -/
def blockCC : Char → Option String
  | 'G' => some "1;1;42"
  | 'Y' => some "1;1;43"
  | 'K' => some "1;1;40"
  | _ => none

/-- `convert_unicode` (simulator.py:55-57). -/
def convertUnicode (result : String) : Option String :=
  (result.data.mapM blockUnicode).map String.mk

/-- `convert_alpha_blocks` (simulator.py:59-65): uppercase the guess, then for
each position of `zip(guess.upper(), result)` replace the entry by the
colour-wrapped letter (entries past `len(result)` stay the bare uppercase
letter); join everything. -/
def convertAlphaBlocks (guess result : String) : Option String :=
  let up := guess.data.map Char.toUpper
  ((List.zip up result.data).mapM (fun gr =>
      (blockCC gr.2).map (fun cc =>
        "\x1b[" ++ cc ++ "m " ++ String.mk [gr.1] ++ " \x1b[0m"))).map
    (fun blocks =>
      String.join (blocks ++ (up.drop result.data.length).map (fun c => String.mk [c])))

/-- `WordleSimulator.guess(word)` (simulator.py:90-145): lowercase the word,
increment `n_guesses` (setting `done` when it reaches `max_guesses`); within
the allowance score the guess and append the result and its two renderings to
the histories; past the allowance return the phony `'XXXXX'` and touch
nothing else.  Finally an all-green result sets `done`.  `none` models the
exceptions the scoring path can raise (`IndexError`/`KeyError`). -/
def simGuess (st : SimState) (w : String) : Option (SimState × String) :=
  let guess := w.toLower
  let n := st.nGuesses + 1
  let done1 := if n = st.maxGuesses then true else st.done
  if n ≤ st.maxGuesses then
    match wsResult st.word guess with
    | none => none
    | some result =>
      match convertUnicode result, convertAlphaBlocks guess result with
      | some ur, some abr =>
        let st1 : SimState :=
          { st with
            nGuesses := n, done := done1,
            results := st.results ++ [result],
            unicodeResults := st.unicodeResults ++ [ur],
            alphaBlocksResults := st.alphaBlocksResults ++ [abr] }
        some (if result.data.all (· = 'G') then { st1 with done := true } else st1, result)
      | _, _ => none
  else
    some ({ st with nGuesses := n, done := done1 }, "XXXXX")

/-!
## Proof-helper definitions
-/

/-- Closed form of the pass-1 markers for equal-length words. -/
def mark1 (h g : List Char) : List (Option Char) :=
  List.zipWith (fun hc gc => if gc = hc then none else some gc) h g

/-- Closed form of `filtered_word` after pass 1 for equal-length words. -/
def filt1 (h g : List Char) : List Char :=
  List.zipWith (fun hc gc => if gc = hc then blank else hc) h g

/-- The reference multiset after pass 1: the hidden letters at the non-exact
positions, in order. -/
def msOf (h g : List Char) : List Char :=
  (List.zip h g).filterMap (fun p => if p.2 = p.1 then none else some p.1)

/-!
## Basic lemmas
-/

theorem lowerChar_ne_blank {c : Char} (h : lowerChar c) : c ≠ blank := by
  intro hb
  subst hb
  exact absurd h.1 (by decide)

theorem length_data (s : String) : s.data.length = s.length := rfl

/-!
## Pass-1 closed forms
-/

theorem pass1_eq : ∀ (h g : List Char), h.length = g.length →
    pass1 h g = some (mark1 h g, filt1 h g)
  | [], [], _ => rfl
  | _ :: _, [], hl => by simp at hl
  | [], _ :: _, hl => by simp at hl
  | hc :: hs, gc :: gs, hl => by
    have ih := pass1_eq hs gs (by simpa using hl)
    by_cases hgc : gc = hc <;> simp [pass1, ih, mark1, filt1, hgc]

theorem refPass1_eq : ∀ (h g : List Char), h.length = g.length →
    refPass1 h g = (mark1 h g, msOf h g)
  | [], [], _ => rfl
  | _ :: _, [], hl => by simp at hl
  | [], _ :: _, hl => by simp at hl
  | hc :: hs, gc :: gs, hl => by
    have ih := refPass1_eq hs gs (by simpa using hl)
    by_cases hgc : gc = hc <;> simp [refPass1, ih, mark1, msOf, hgc]

theorem filt1_filter : ∀ (h g : List Char), (∀ c ∈ h, c ≠ blank) →
    (filt1 h g).filter (fun c => c != blank) = msOf h g
  | [], g, _ => by cases g <;> rfl
  | _ :: _, [], _ => rfl
  | hc :: hs, gc :: gs, hh => by
    have ih := filt1_filter hs gs (fun c hc1 => hh c (List.mem_cons_of_mem _ hc1))
    have hcb : hc ≠ blank := hh hc (List.mem_cons_self _ _)
    by_cases hgc : gc = hc <;>
      simp_all [filt1, msOf, blank, List.filter_cons]

theorem mark1_mem : ∀ (h g : List Char) (x : Char), some x ∈ mark1 h g → x ∈ g
  | [], _, _, hx => by simp [mark1] at hx
  | _ :: _, [], _, hx => by simp [mark1] at hx
  | hc :: hs, gc :: gs, x, hx => by
    by_cases hgc : gc = hc
    · simp only [mark1, List.zipWith_cons_cons, hgc, if_pos rfl] at hx
      rcases List.mem_cons.mp hx with h1 | h1
      · exact absurd h1 (by simp)
      · exact List.mem_cons_of_mem _ (mark1_mem hs gs x h1)
    · simp only [mark1, List.zipWith_cons_cons, if_neg hgc] at hx
      rcases List.mem_cons.mp hx with h1 | h1
      · have : x = gc := by simpa using h1
        exact this ▸ List.mem_cons_self _ _
      · exact List.mem_cons_of_mem _ (mark1_mem hs gs x h1)

/-!
## Pass-2 equivalence with the reference pass 2
-/

theorem blankFirst_filter : ∀ (l : List Char) (c : Char), c ≠ blank →
    (blankFirst l c).filter (fun x => x != blank) =
      (l.filter (fun x => x != blank)).erase c
  | [], _, _ => rfl
  | x :: xs, c, hc => by
    by_cases hxc : x = c
    · subst hxc
      have hc' : x ≠ '_' := hc
      simp [blankFirst, List.filter_cons, List.erase_cons, blank, hc']
    · have ih := blankFirst_filter xs c hc
      by_cases hxb : x = blank
      · subst hxb
        simp_all [blankFirst, List.filter_cons, blank, Ne.symm hxc]
      · simp_all [blankFirst, List.filter_cons, List.erase_cons, blank,
          Ne.symm hxc, hxc, hxb]

theorem mem_filter_ne_blank {x : Char} {l : List Char} (hx : x ≠ blank) :
    x ∈ l.filter (fun c => c != blank) ↔ x ∈ l := by
  simp [List.mem_filter, hx]

theorem pass2_eq_refPass2 : ∀ (res : List (Option Char)) (filt : List Char),
    (∀ x, some x ∈ res → x ≠ blank) →
    pass2 res filt = refPass2 res (filt.filter (fun c => c != blank))
  | [], _, _ => rfl
  | none :: rest, filt, hres => by
    simp only [pass2, refPass2]
    exact congrArg _ (pass2_eq_refPass2 rest filt
      (fun x hx => hres x (List.mem_cons_of_mem _ hx)))
  | some gc :: rest, filt, hres => by
    have hgc : gc ≠ blank := hres gc (List.mem_cons_self _ _)
    have hrest : ∀ x, some x ∈ rest → x ≠ blank :=
      fun x hx => hres x (List.mem_cons_of_mem _ hx)
    by_cases hmem : gc ∈ filt
    · rw [pass2, refPass2, if_pos hmem, if_pos ((mem_filter_ne_blank hgc).mpr hmem),
        pass2_eq_refPass2 rest _ hrest, blankFirst_filter filt gc hgc]
    · rw [pass2, refPass2, if_neg hmem,
        if_neg (fun hx => hmem ((mem_filter_ne_blank hgc).mp hx)),
        pass2_eq_refPass2 rest _ hrest]

/-- The simulator's scorer agrees with the reference two-pass multiset scorer
on equal-length lowercase words (shared helper). -/
theorem wsResult_eq_refScore (hidden guess : String)
    (hl : hidden.length = guess.length) (hh : lowerWord hidden) (hg : lowerWord guess) :
    wsResult hidden guess = some (refScore hidden guess) := by
  have hld : hidden.data.length = guess.data.length := hl
  have hres : ∀ x, some x ∈ mark1 hidden.data guess.data → x ≠ blank :=
    fun x hx => lowerChar_ne_blank (hg x (mark1_mem _ _ x hx))
  have hhb : ∀ c ∈ hidden.data, c ≠ blank := fun c hc => lowerChar_ne_blank (hh c hc)
  rw [wsResult, pass1_eq _ _ hld, refScore, refPass1_eq _ _ hld]
  simp only [Option.some.injEq]
  rw [pass2_eq_refPass2 _ _ hres, filt1_filter _ _ hhb]

/-- Claim C2 (confirmed): on equal-length lowercase words the simulator's
scorer `_result` equals the reference two-pass multiset algorithm — pass 1
marks EXACT matches removing each matched occurrence from the hidden-word
multiset, pass 2 walks the remaining positions left to right marking PRESENT
(and removing one occurrence) when the letter remains available, ABSENT
otherwise, so leftmost guess positions claim PRESENT first and no hidden
occurrence is claimed twice. -/
theorem claim_C2 (hidden guess : String) (hl : hidden.length = guess.length)
    (hh : lowerWord hidden) (hg : lowerWord guess) :
    wsResult hidden guess = some (refScore hidden guess) :=
  wsResult_eq_refScore hidden guess hl hh hg

/-- Witness for C2 at the duplicate-letter spec fixture `("speed", "erase")`. -/
theorem claim_C2_witness :
    wsResult "speed" "erase" = some (refScore "speed" "erase") :=
  claim_C2 "speed" "erase" (by decide) (by decide) (by decide)

/-!
## The filtering loop never signals and only shrinks the pool (C3, C4, C5)
-/

theorem loadStep_pool_le (guess result : String) (st : SolverState) (i : Nat) :
    (loadStep guess result st i).pool.length ≤ st.pool.length := by
  unfold loadStep
  by_cases h1 : (st.green.lookup i).isSome
  · simp [h1]
  · by_cases h2 : charAt result i = 'G'
    · simp only [h1, h2, if_false, if_true, Bool.false_eq_true]
      simpa using List.length_filter_le _ st.pool
    · by_cases h3 : charAt result i = 'K' <;>
        · simp only [h1, h2, h3, if_false, if_true, Bool.false_eq_true]
          simpa using List.length_filter_le _ st.pool

theorem foldl_loadStep_pool_le (guess result : String) :
    ∀ (ps : List Nat) (st : SolverState),
      (ps.foldl (loadStep guess result) st).pool.length ≤ st.pool.length
  | [], _ => le_refl _
  | i :: ps, st =>
    le_trans (foldl_loadStep_pool_le guess result ps _) (loadStep_pool_le guess result st i)

/-- Claim C5 (confirmed): `load_result` only ever filters the pool — for every
state and every guess/feedback input the candidate pool after the call is no
larger than before. -/
theorem claim_C5 (st : SolverState) (guess result : String) :
    (loadResult st guess result).pool.length ≤ st.pool.length :=
  foldl_loadStep_pool_le guess result _ _

theorem loadStep_frame (guess result : String) (st : SolverState) (i : Nat) :
    (loadStep guess result st i).results = st.results ∧
      (loadStep guess result st i).guesses = st.guesses := by
  unfold loadStep
  by_cases h1 : (st.green.lookup i).isSome
  · simp [h1]
  · by_cases h2 : charAt result i = 'G'
    · simp [h1, h2]
    · by_cases h3 : charAt result i = 'K' <;> simp [h1, h2, h3]

theorem foldl_loadStep_frame (guess result : String) :
    ∀ (ps : List Nat) (st : SolverState),
      (ps.foldl (loadStep guess result) st).results = st.results ∧
        (ps.foldl (loadStep guess result) st).guesses = st.guesses
  | [], _ => ⟨rfl, rfl⟩
  | i :: ps, st => by
    have h1 := loadStep_frame guess result st i
    have h2 := foldl_loadStep_frame guess result ps (loadStep guess result st i)
    exact ⟨h2.1.trans h1.1, h2.2.trans h1.2⟩

/-- Claim C3 counterexample: on the 3-word pool `{ab, ac, ad}` the feedback
`"KK"` for guess `"ab"` (inconsistent with every candidate) empties the pool,
and `load_result` returns normally — the feedback is recorded and the empty
pool is left in place; no `ContradictionError` is raised (none exists in the
code). -/
theorem claim_C3_counterexample :
    (loadResult (resetState ["ab", "ac", "ad"]) "ab" "KK").pool = [] ∧
      (loadResult (resetState ["ab", "ac", "ad"]) "ab" "KK").results = ["KK"] := by
  exact ⟨by decide, by decide⟩

/-- Claim C3 (corrected): `load_result` performs no emptiness check and can
raise nothing about it — for every state and every guess/feedback input the
call completes normally, appending the feedback to the result history (and
leaving whatever pool the filtering produced, even the empty one). -/
theorem claim_C3_amended (st : SolverState) (guess result : String) :
    (loadResult st guess result).results = st.results ++ [result] ∧
      (loadResult st guess result).guesses = st.guesses := by
  have h := foldl_loadStep_frame guess result
    (List.range (min guess.length result.length))
    { st with results := st.results ++ [result] }
  exact ⟨h.1, h.2⟩

/-!
## Length behaviour of the scorer and the filtering loop (C4)
-/

theorem pass1_isSome : ∀ (h g : List Char), (pass1 h g).isSome ↔ g.length ≤ h.length
  | _, [] => by simp [pass1]
  | [], _ :: _ => by simp [pass1]
  | wc :: ws, gc :: gs => by
    have ih := pass1_isSome ws gs
    cases hp : pass1 ws gs with
    | none =>
      simp only [hp, Option.isSome_none, Bool.false_eq_true, false_iff] at ih
      simp [pass1, hp, ih]
    | some p => by_cases hgc : gc = wc <;> simp_all [pass1, hp, hgc]

theorem pass2_length : ∀ (res : List (Option Char)) (filt : List Char),
    (pass2 res filt).length = res.length
  | [], _ => rfl
  | none :: rest, filt => by simp [pass2, pass2_length rest filt]
  | some gc :: rest, filt => by
    by_cases hm : gc ∈ filt <;> simp [pass2, hm, pass2_length rest]

theorem pass1_res_length : ∀ (h g : List Char) (res : List (Option Char)) (filt : List Char),
    pass1 h g = some (res, filt) → res.length = g.length
  | _, [], res, filt => by intro hp; simp [pass1] at hp; simp [hp.1.symm]
  | [], _ :: _, res, filt => by intro hp; simp [pass1] at hp
  | wc :: ws, gc :: gs, res, filt => by
    intro hp
    cases hq : pass1 ws gs with
    | none => simp [pass1, hq] at hp
    | some p =>
      by_cases hgc : gc = wc <;>
        · simp only [pass1, hq, hgc, if_pos, if_neg, ite_true, ite_false] at hp
          cases hp.symm
          simp_all [pass1_res_length ws gs p.1 p.2 (by rw [hq])]

/-- Claim C4 counterexample: a guess shorter than the hidden word is scored
without any error (`_result("ra")` on hidden `"ratio"` returns `"GG"`), and
`load_result` with a feedback string shorter than the guess neither checks
lengths nor aborts — it records the feedback and filters by the truncated
prefix (here emptying the pool). -/
theorem claim_C4_counterexample :
    wsResult "ratio" "ra" = some "GG" ∧
      (loadResult (resetState ["ab"]) "ab" "K").results = ["K"] ∧
      (loadResult (resetState ["ab"]) "ab" "K").pool = [] := by
  exact ⟨by decide, by decide, by decide⟩

/-- Claim C4 (corrected): no length-mismatch error exists.  `_result` succeeds
whenever the guess is no longer than the hidden word (returning feedback of
the guess's length, even when shorter than the hidden word) and fails — with
an `IndexError`, not a length check — exactly when the guess is longer;
`load_result` never compares lengths: `zip` silently truncates to the shorter
of guess and feedback, and the feedback is appended to the history
regardless. -/
theorem claim_C4_amended :
    (∀ hidden guess : String, guess.length ≤ hidden.length →
        ∃ r, wsResult hidden guess = some r ∧ r.length = guess.length) ∧
      (∀ hidden guess : String, hidden.length < guess.length →
        wsResult hidden guess = none) ∧
      (∀ (st : SolverState) (guess result : String),
        (loadResult st guess result).results = st.results ++ [result]) := by
  refine ⟨fun hidden guess hle => ?_, fun hidden guess hlt => ?_, ?_⟩
  · have hs : (pass1 hidden.data guess.data).isSome := (pass1_isSome _ _).mpr hle
    cases hp : pass1 hidden.data guess.data with
    | none => rw [hp] at hs; exact absurd hs (by simp)
    | some p =>
      refine ⟨String.mk (pass2 p.1 p.2), by rw [wsResult, hp], ?_⟩
      show (pass2 p.1 p.2).length = guess.length
      rw [pass2_length, pass1_res_length hidden.data guess.data p.1 p.2 (by rw [hp])]
      rfl
  · cases hp : pass1 hidden.data guess.data with
    | none => rw [wsResult, hp]
    | some p =>
      have hs : (pass1 hidden.data guess.data).isSome := by rw [hp]; rfl
      have := (pass1_isSome hidden.data guess.data).mp hs
      rw [length_data, length_data] at this
      exact absurd this (by omega)
  · exact fun st guess result => (claim_C3_amended st guess result).1

/-- Witness for C4's amended statement at concrete inputs. -/
theorem claim_C4_witness :
    (∃ r, wsResult "ratio" "rat" = some r ∧ r.length = ("rat" : String).length) ∧
      wsResult "ra" "ratio" = none ∧
      (loadResult (resetState ["ab"]) "ab" "K").results =
        (resetState ["ab"]).results ++ ["K"] :=
  ⟨claim_C4_amended.1 "ratio" "rat" (by decide),
    claim_C4_amended.2.1 "ra" "ratio" (by decide),
    claim_C4_amended.2.2 (resetState ["ab"]) "ab" "K"⟩

/-!
## `reset` (C8)
-/

/-- Claim C8 counterexample: `reset` applies no length filter — on a bank
whose only word has 6 letters, a solver configured for 5-letter words
completes `reset()` (every `x[i]` with `i < 5` is in range) with the
6-letter word still in the pool, whereas the claimed filtering would leave
the pool empty.  (A word *shorter* than `n_letters` would instead make the
feature recomputation raise `IndexError` — also not the claimed
filtering.) -/
theorem claim_C8_counterexample :
    resetOpt ["abcdef"] 5 = some (resetState ["abcdef"]) ∧
      ((resetState ["abcdef"]).pool).map Entry.word = ["abcdef"] ∧
      ["abcdef"].filter (fun w => w.length == 5) = ([] : List String) := by
  exact ⟨by decide, by decide, by decide⟩

/-- Claim C8 (corrected): `reset` never filters the word list by length.
When every loaded word has at least `n_letters` letters, the call completes:
the pool is the bank as loaded (longer words included), `no_green_word` is
the word itself, and the locked positions, guess history and result history
are cleared.  When some loaded word is shorter than `n_letters`, the feature
recomputation inside `reset` raises `IndexError` (before the histories are
cleared) instead of filtering. -/
theorem claim_C8_amended :
    (∀ (allWords : List String) (n : Nat), (∀ w ∈ allWords, n ≤ w.length) →
      resetOpt allWords n = some (resetState allWords) ∧
        ((resetState allWords).pool).map Entry.word = allWords ∧
        (∀ e ∈ (resetState allWords).pool, e.ngw = e.word) ∧
        (resetState allWords).green = [] ∧
        (resetState allWords).guesses = [] ∧
        (resetState allWords).results = []) ∧
    (∀ (allWords : List String) (n : Nat), (∃ w ∈ allWords, w.length < n) →
      resetOpt allWords n = none) := by
  constructor
  · intro allWords n hlen
    refine ⟨by rw [resetOpt, if_pos hlen], ?_, ?_, rfl, rfl, rfl⟩
    · simp [resetState, Function.comp_def]
    · intro e he
      simp only [resetState, List.mem_map] at he
      obtain ⟨w, _, hw⟩ := he
      rw [← hw]
  · intro allWords n hshort
    obtain ⟨w, hw, hlt⟩ := hshort
    rw [resetOpt, if_neg (fun hall => absurd (hall w hw) (by omega))]

/-- Witness for C8's amended statement: a 6-letter bank completes reset for a
5-letter solver; a 3-letter bank makes it raise. -/
theorem claim_C8_witness :
    (resetOpt ["abcdef"] 5 = some (resetState ["abcdef"]) ∧
      ((resetState ["abcdef"]).pool).map Entry.word = ["abcdef"] ∧
      (∀ e ∈ (resetState ["abcdef"]).pool, e.ngw = e.word) ∧
      (resetState ["abcdef"]).green = [] ∧
      (resetState ["abcdef"]).guesses = [] ∧
      (resetState ["abcdef"]).results = []) ∧
    resetOpt ["abc"] 5 = none :=
  ⟨claim_C8_amended.1 ["abcdef"] 5 (by decide),
    claim_C8_amended.2 ["abc"] 5 ⟨"abc", by decide, by decide⟩⟩

/-!
## The descending sort behind `HardModeSolver.guess` (C6, C9)
-/

theorem last_mem {α : Type} : ∀ (l : List α) (b : α), l.getLast? = some b → b ∈ l
  | [], _, h => by simp at h
  | [a], b, h => by simp_all
  | a :: c :: cs, b, h => by
    rw [List.getLast?_cons_cons] at h
    exact List.mem_cons_of_mem _ (last_mem (c :: cs) b h)

theorem insertAsc_mem (f : Entry → Nat) (e x : Entry) :
    ∀ l : List Entry, x ∈ insertAsc f e l ↔ x = e ∨ x ∈ l
  | [] => by simp [insertAsc]
  | y :: ys => by
    by_cases hle : f e ≤ f y
    · simp only [insertAsc, if_pos hle, List.mem_cons]
    · simp only [insertAsc, if_neg hle, List.mem_cons, insertAsc_mem f e x ys]
      tauto

theorem insertAsc_pairwise (f : Entry → Nat) (e : Entry) :
    ∀ l : List Entry, List.Pairwise (fun a b => f a ≤ f b) l →
      List.Pairwise (fun a b => f a ≤ f b) (insertAsc f e l)
  | [], _ => by simp [insertAsc]
  | y :: ys, hp => by
    rcases List.pairwise_cons.mp hp with ⟨hy, hys⟩
    by_cases hle : f e ≤ f y
    · rw [insertAsc, if_pos hle]
      exact List.pairwise_cons.mpr
        ⟨fun x hx => by
          rcases List.mem_cons.mp hx with h | h
          · exact h ▸ hle
          · exact le_trans hle (hy x h), hp⟩
    · rw [insertAsc, if_neg hle]
      exact List.pairwise_cons.mpr
        ⟨fun x hx => by
          rcases (insertAsc_mem f e x ys).mp hx with h | h
          · exact h ▸ le_of_not_le hle
          · exact hy x h,
          insertAsc_pairwise f e ys hys⟩

theorem insertAsc_getLast? (f : Entry → Nat) (e : Entry) :
    ∀ l : List Entry, List.Pairwise (fun a b => f a ≤ f b) l →
      (insertAsc f e l).getLast? =
        some ((l.getLast?.map (fun b => if f b < f e then e else b)).getD e)
  | [], _ => by simp [insertAsc]
  | y :: ys, hp => by
    rcases List.pairwise_cons.mp hp with ⟨hy, hys⟩
    by_cases hle : f e ≤ f y
    · rw [insertAsc, if_pos hle]
      cases hb : (y :: ys).getLast? with
      | none => simp at hb
      | some b =>
        have hble : f y ≤ f b := by
          rcases List.mem_cons.mp (last_mem _ _ hb) with h | h
          · exact h ▸ le_refl _
          · exact hy b h
        have : ¬ f b < f e := fun hlt => absurd (le_trans hle hble) (not_le.mpr hlt)
        rw [List.getLast?_cons_cons, hb]
        simp [this]
    · rw [insertAsc, if_neg hle]
      cases ys with
      | nil =>
        simp only [insertAsc, List.getLast?_cons_cons]
        simp [lt_of_not_le hle]
      | cons c cs =>
        have hne : insertAsc f e (c :: cs) ≠ [] := by
          by_cases h : f e ≤ f c <;> simp [insertAsc, h]
        have ih := insertAsc_getLast? f e (c :: cs) hys
        cases hl : insertAsc f e (c :: cs) with
        | nil => exact absurd hl hne
        | cons z zs =>
          rw [List.getLast?_cons_cons, ← hl, ih, List.getLast?_cons_cons]

theorem argmaxLast_eq_none (f : Entry → Nat) :
    ∀ l : List Entry, argmaxLast f l = none ↔ l = []
  | [] => by simp [argmaxLast]
  | e :: es => by
    cases hb : argmaxLast f es with
    | none => simp [argmaxLast, hb]
    | some b => by_cases h : f e > f b <;> simp [argmaxLast, hb, h]

theorem sortAsc_pairwise (f : Entry → Nat) :
    ∀ l : List Entry, List.Pairwise (fun a b => f a ≤ f b) (sortAsc f l)
  | [] => List.Pairwise.nil
  | e :: es => insertAsc_pairwise f e (sortAsc f es) (sortAsc_pairwise f es)

theorem sortAsc_getLast? (f : Entry → Nat) :
    ∀ l : List Entry, (sortAsc f l).getLast? = argmaxLast f l
  | [] => rfl
  | e :: es => by
    have ih := sortAsc_getLast? f es
    rw [sortAsc, insertAsc_getLast? f e (sortAsc f es) (sortAsc_pairwise f es), ih]
    cases hb : argmaxLast f es with
    | none => simp [argmaxLast, hb]
    | some b => by_cases h : f b < f e <;> simp [argmaxLast, hb, h, gt_iff_lt]

theorem argmaxLast_mem (f : Entry → Nat) :
    ∀ (l : List Entry) (b : Entry), argmaxLast f l = some b → b ∈ l
  | [], _, h => by simp [argmaxLast] at h
  | e :: es, b, h => by
    cases hb : argmaxLast f es with
    | none =>
      simp only [argmaxLast, hb] at h
      exact (Option.some_inj.mp h) ▸ List.mem_cons_self _ _
    | some c =>
      simp only [argmaxLast, hb] at h
      by_cases hfe : f e > f c
      · rw [if_pos hfe] at h
        exact (Option.some_inj.mp h) ▸ List.mem_cons_self _ _
      · rw [if_neg hfe] at h
        exact List.mem_cons_of_mem _
          ((Option.some_inj.mp h) ▸ argmaxLast_mem f es c hb)

theorem argmaxLast_le (f : Entry → Nat) :
    ∀ (l : List Entry) (b : Entry), argmaxLast f l = some b → ∀ x ∈ l, f x ≤ f b
  | [], _, _, x, hx => by simp at hx
  | e :: es, b, h, x, hx => by
    cases hb : argmaxLast f es with
    | none =>
      have : es = [] := (argmaxLast_eq_none f es).mp hb
      subst this
      simp only [argmaxLast, hb] at h
      rcases List.mem_cons.mp hx with h1 | h1
      · exact le_of_eq (by rw [h1, Option.some_inj.mp h])
      · simp at h1
    | some c =>
      simp only [argmaxLast, hb] at h
      by_cases hfe : f e > f c
      · rw [if_pos hfe] at h
        rcases List.mem_cons.mp hx with h1 | h1
        · exact le_of_eq (by rw [h1, Option.some_inj.mp h])
        · exact le_trans (argmaxLast_le f es c hb x h1) (le_of_lt (Option.some_inj.mp h ▸ hfe))
      · rw [if_neg hfe] at h
        rcases List.mem_cons.mp hx with h1 | h1
        · exact h1 ▸ (Option.some_inj.mp h ▸ le_of_not_lt hfe)
        · exact Option.some_inj.mp h ▸ argmaxLast_le f es c hb x h1

/-- In the embedded sort model, the row `guess` picks is the maximum-score
row with ties resolved toward the row latest in the current pool order
(shared helper; exact for the code in numpy's stable insertion-sort regime,
and used below only to derive tie-order-independent consequences and
concrete small-pool facts). -/
theorem guessWord_eq_argmaxLast (mode : ScoreMode) (n : Nat) (st : SolverState) :
    guessWord mode n st =
      (argmaxLast (scoreOf st.pool st.green n mode) st.pool).map Entry.word := by
  rw [guessWord, sortValuesDesc, List.head?_reverse, sortAsc_getLast?]

/-- Claim C6 counterexample: on the two-word pool `{ab, ba}` (equal scores in
every mode, as the third conjunct shows for the default `across` mode),
`guess` returns `"ba"` — the tied candidate that comes *last* in the list —
whereas the claimed first-in-original-order tie-breaking would return
`"ab"`.  (At two elements numpy's argsort is its stable insertion sort, so
the sort model is exact here.) -/
theorem claim_C6_counterexample :
    guessWord ScoreMode.across 2 (resetState ["ab", "ba"]) = some "ba" ∧
      (argmaxFirst
          (scoreOf (resetState ["ab", "ba"]).pool (resetState ["ab", "ba"]).green 2
            ScoreMode.across)
          (resetState ["ab", "ba"]).pool).map Entry.word = some "ab" ∧
      scoreOf (resetState ["ab", "ba"]).pool (resetState ["ab", "ba"]).green 2
          ScoreMode.across { word := "ab", ngw := "ab" } =
        scoreOf (resetState ["ab", "ba"]).pool (resetState ["ab", "ba"]).green 2
          ScoreMode.across { word := "ba", ngw := "ba" } := by
  exact ⟨by decide, by decide, by decide⟩

/-- Claim C6 (corrected): `guess` returns a candidate word attaining the
maximum score for the configured ranking mode, but the claimed deterministic
first-in-original-order tie-break is wrong.  pandas reverses an ascending
argsort: on the counterexample's two-word tied pool (numpy's stable
insertion-sort regime) the *last* tied candidate is returned, and on pools
beyond that regime numpy's introsort leaves the tie order unspecified.  What
holds universally — independently of the tie order — is that the returned
word is a pool member of maximum score, which is what this theorem
asserts. -/
theorem claim_C6_amended (mode : ScoreMode) (n : Nat) (st : SolverState)
    (hne : st.pool ≠ []) :
    ∃ e ∈ st.pool, guessWord mode n st = some e.word ∧
      ∀ x ∈ st.pool,
        scoreOf st.pool st.green n mode x ≤ scoreOf st.pool st.green n mode e := by
  cases hb : argmaxLast (scoreOf st.pool st.green n mode) st.pool with
  | none => exact absurd ((argmaxLast_eq_none _ _).mp hb) hne
  | some b =>
    refine ⟨b, argmaxLast_mem _ _ _ hb, ?_, argmaxLast_le _ _ _ hb⟩
    rw [guessWord_eq_argmaxLast, hb, Option.map_some']

/-- Witness for C6's amended statement on a concrete tied pool. -/
theorem claim_C6_witness :
    ∃ e ∈ (resetState ["ab", "ba"]).pool,
      guessWord ScoreMode.across 2 (resetState ["ab", "ba"]) = some e.word ∧
      ∀ x ∈ (resetState ["ab", "ba"]).pool,
        scoreOf (resetState ["ab", "ba"]).pool (resetState ["ab", "ba"]).green 2
            ScoreMode.across x ≤
          scoreOf (resetState ["ab", "ba"]).pool (resetState ["ab", "ba"]).green 2
            ScoreMode.across e :=
  claim_C6_amended ScoreMode.across 2 (resetState ["ab", "ba"]) (by decide)

/-- Claim C9 (confirmed): whenever the pool is non-empty, the word `guess`
returns is a member of the current candidate pool — the hard-mode guarantee
(the chosen row is drawn from `self.wordbank` itself). -/
theorem claim_C9 (mode : ScoreMode) (n : Nat) (st : SolverState) (hne : st.pool ≠ []) :
    ∃ w, guessWord mode n st = some w ∧ w ∈ st.pool.map Entry.word := by
  cases hb : argmaxLast (scoreOf st.pool st.green n mode) st.pool with
  | none => exact absurd ((argmaxLast_eq_none _ _).mp hb) hne
  | some b =>
    refine ⟨b.word, ?_, List.mem_map_of_mem _ (argmaxLast_mem _ _ _ hb)⟩
    rw [guessWord_eq_argmaxLast, hb, Option.map_some']

/-- Witness for C9 on a concrete non-empty pool. -/
theorem claim_C9_witness :
    ∃ w, guessWord ScoreMode.combined 2 (resetState ["ab", "ba"]) = some w ∧
      w ∈ ((resetState ["ab", "ba"]).pool).map Entry.word :=
  claim_C9 ScoreMode.combined 2 (resetState ["ab", "ba"]) (by decide)

/-!
## `across_score` structure (C7)
-/

theorem charAt_lower {w : String} {i : Nat} (hl : lowerWord w) (hi : i < w.length) :
    lowerChar (charAt w i) := by
  have hi' : i < w.data.length := hi
  rw [charAt, List.getD_eq_getElem w.data blank hi']
  exact hl _ (List.getElem_mem hi')

theorem acrossCount_blank (pool : List Entry) (green : List (Nat × Char)) (n : Nat)
    (hp : ∀ x ∈ pool, x.word.length = n ∧ lowerWord x.word) :
    acrossCount pool green n blank = 0 := by
  rw [acrossCount]
  apply List.sum_eq_zero
  intro x hx
  simp only [List.mem_map] at hx
  obtain ⟨i, hi, hix⟩ := hx
  rw [← hix, letterCount]
  by_cases hg : (green.lookup i).isSome
  · rw [if_pos hg]
  · rw [if_neg hg]
    have hnil : pool.filter (fun e => charAt e.word i == blank) = [] := by
      rw [List.filter_eq_nil_iff]
      intro e he
      obtain ⟨hlen, hlow⟩ := hp e he
      have hne := lowerChar_ne_blank (charAt_lower hlow (hlen ▸ List.mem_range.mp hi))
      simp [hne]
    rw [hnil]
    rfl

/-- Claim C7 (confirmed): for every pool member, `across_score` is the sum
over its non-locked positions of the position's letter's global
across-position frequency, counting each distinct letter only once — at its
leftmost non-locked occurrence — so a letter repeated inside the candidate is
never double-counted. -/
theorem claim_C7 (pool : List Entry) (green : List (Nat × Char)) (n : Nat) (e : Entry)
    (hp : ∀ x ∈ pool, x.word.length = n ∧ lowerWord x.word) (he : e ∈ pool) :
    acrossScore pool green n e = specAcrossScore pool green n e := by
  unfold acrossScore specAcrossScore
  refine congrArg List.sum (List.map_congr_left fun i hi => ?_)
  have hin : i < n := List.mem_range.mp hi
  obtain ⟨hlen, hlow⟩ := hp e he
  by_cases hg : (green.lookup i).isSome
  · have hgi : ¬(green.lookup i = none) := by
      intro h
      rw [h] at hg
      exact absurd hg (by simp)
    have h1 : letterCol green e i = blank := by rw [letterCol, if_pos hg]
    have hterm :
        (if isRepeat green e i = true then (0 : Nat)
          else acrossCount pool green n (letterCol green e i)) = 0 := by
      rw [h1, acrossCount_blank pool green n hp, ite_self]
    rw [hterm, if_neg (fun hc => hgi hc.1)]
  · have hgi : green.lookup i = none := Option.not_isSome_iff_eq_none.mp hg
    have h1 : letterCol green e i = charAt e.word i := by rw [letterCol, if_neg hg]
    have hch : lowerChar (charAt e.word i) := charAt_lower hlow (by rw [hlen]; exact hin)
    have hrep : isRepeat green e i = true ↔
        ∃ j ∈ List.range i, green.lookup j = none ∧ charAt e.word j = charAt e.word i := by
      rw [isRepeat, List.any_eq_true]
      constructor
      · rintro ⟨j, hj, hbeq⟩
        have heq : letterCol green e j = letterCol green e i := eq_of_beq hbeq
        by_cases hgj : (green.lookup j).isSome
        · have hbj : letterCol green e j = blank := by rw [letterCol, if_pos hgj]
          rw [hbj, h1] at heq
          exact absurd heq.symm (lowerChar_ne_blank hch)
        · refine ⟨j, hj, Option.not_isSome_iff_eq_none.mp hgj, ?_⟩
          have hcj : letterCol green e j = charAt e.word j := by rw [letterCol, if_neg hgj]
          rw [← hcj, heq, h1]
      · rintro ⟨j, hj, hgj, hcj⟩
        refine ⟨j, hj, ?_⟩
        have hgj' : ¬(green.lookup j).isSome := by rw [hgj]; simp
        have hcj' : letterCol green e j = charAt e.word j := by rw [letterCol, if_neg hgj']
        simp [hcj', h1, hcj]
    by_cases hr : isRepeat green e i = true
    · obtain ⟨j, hj, hgj, hcj⟩ := hrep.mp hr
      have hnc : ¬(green.lookup i = none ∧
          ∀ j ∈ List.range i, green.lookup j = none → charAt e.word j ≠ charAt e.word i) := by
        rintro ⟨-, hall⟩
        exact hall j hj hgj hcj
      rw [if_pos hr, if_neg hnc]
    · have hcond : green.lookup i = none ∧
          ∀ j ∈ List.range i, green.lookup j = none → charAt e.word j ≠ charAt e.word i :=
        ⟨hgi, fun j hj hgj hcj => hr (hrep.mpr ⟨j, hj, hgj, hcj⟩)⟩
      rw [if_neg hr, if_pos hcond, h1]

/-- Witness for C7 on a concrete pool with a repeated-letter candidate. -/
theorem claim_C7_witness :
    acrossScore (resetState ["aba", "bac"]).pool [] 3 { word := "aba", ngw := "aba" } =
      specAcrossScore (resetState ["aba", "bac"]).pool [] 3 { word := "aba", ngw := "aba" } :=
  claim_C7 (resetState ["aba", "bac"]).pool [] 3 { word := "aba", ngw := "aba" }
    (by decide) (by decide)

/-!
## The simulator past its guess allowance (C10)
-/

/-- Claim C10 (confirmed): once `n_guesses` exceeds `max_guesses`, every
further `WordleSimulator.guess` call returns the constant `"XXXXX"` (length 5
whatever the word length), appends nothing to `results`, `unicode_results` or
`alpha_blocks_results`, and still increments `n_guesses`. -/
theorem claim_C10 (st : SimState) (w : String) (hgt : st.nGuesses > st.maxGuesses) :
    ∃ st', simGuess st w = some (st', "XXXXX") ∧
      st'.results = st.results ∧
      st'.unicodeResults = st.unicodeResults ∧
      st'.alphaBlocksResults = st.alphaBlocksResults ∧
      st'.nGuesses = st.nGuesses + 1 ∧
      ("XXXXX" : String).length = 5 := by
  have hle : ¬(st.nGuesses + 1 ≤ st.maxGuesses) := by omega
  have hsim : simGuess st w = some ({ st with nGuesses := st.nGuesses + 1, done := if st.nGuesses + 1 = st.maxGuesses then true else st.done }, "XXXXX") := by
    rw [simGuess, if_neg hle]
  exact ⟨_, hsim, rfl, rfl, rfl, rfl, rfl⟩

/-!
## Feedback characterisation for duplicate-free guesses (towards C1)

When the guess has no repeated letters, the feedback at each position depends
only on the initial multiset: later erasures always remove other letters.
-/

theorem refPass2_nodup : ∀ (fb : List (Option Char)) (ms : List Char),
    (fb.filterMap id).Nodup →
    refPass2 fb ms = fb.map (fun o => match o with
      | none => 'G'
      | some x => if x ∈ ms then 'Y' else 'K')
  | [], _, _ => rfl
  | none :: rest, ms, hnd => by
    have hnd' : (rest.filterMap id).Nodup := by simpa using hnd
    simp only [refPass2, List.map_cons]
    exact congrArg _ (refPass2_nodup rest ms hnd')
  | some x :: rest, ms, hnd => by
    have h1 : (x :: rest.filterMap id).Nodup := by simpa using hnd
    have hx : x ∉ rest.filterMap id := (List.nodup_cons.mp h1).1
    have hnd' := (List.nodup_cons.mp h1).2
    by_cases hm : x ∈ ms
    · simp only [refPass2, if_pos hm, List.map_cons]
      rw [refPass2_nodup rest (ms.erase x) hnd']
      refine congrArg _ (List.map_congr_left fun o ho => ?_)
      cases o with
      | none => rfl
      | some y =>
        have hy : y ∈ rest.filterMap id := List.mem_filterMap.mpr ⟨some y, ho, rfl⟩
        have hne : y ≠ x := fun he => hx (he ▸ hy)
        simp [List.mem_erase_of_ne hne]
    · simp only [refPass2, if_neg hm, List.map_cons]
      exact congrArg _ (refPass2_nodup rest ms hnd')

theorem mark1_filterMap_sublist : ∀ (h g : List Char), List.Sublist ((mark1 h g).filterMap id) g
  | [], g => by simp [mark1]
  | _ :: _, [] => by simp [mark1]
  | hc :: hs, gc :: gs => by
    by_cases hgc : gc = hc
    · simp only [mark1, List.zipWith_cons_cons, if_pos hgc, List.filterMap_cons, id]
      exact (mark1_filterMap_sublist hs gs).cons gc
    · simp only [mark1, List.zipWith_cons_cons, if_neg hgc, List.filterMap_cons, id]
      exact (mark1_filterMap_sublist hs gs).cons₂ gc

theorem msOf_mem_iff : ∀ (h g : List Char), h.length = g.length → ∀ x : Char,
    (x ∈ msOf h g ↔
      ∃ p, p < h.length ∧ h.getD p blank = x ∧ g.getD p blank ≠ h.getD p blank)
  | [], [], _, x => by simp [msOf]
  | _ :: _, [], hl, x => by simp at hl
  | [], _ :: _, hl, x => by simp at hl
  | hc :: hs, gc :: gs, hl, x => by
    have ih := msOf_mem_iff hs gs (by simpa using hl) x
    by_cases hgc : gc = hc
    · have hm : msOf (hc :: hs) (gc :: gs) = msOf hs gs := by simp [msOf, hgc]
      rw [hm, ih]
      constructor
      · rintro ⟨p, hp, h1, h2⟩
        exact ⟨p + 1, by simp only [List.length_cons]; omega,
          by simpa using h1, by simpa using h2⟩
      · rintro ⟨p, hp, h1, h2⟩
        cases p with
        | zero =>
          simp only [List.getD_cons_zero] at h1 h2
          exact absurd hgc h2
        | succ p =>
          exact ⟨p, by simp only [List.length_cons] at hp; omega,
            by simpa using h1, by simpa using h2⟩
    · have hm : msOf (hc :: hs) (gc :: gs) = hc :: msOf hs gs := by simp [msOf, hgc]
      rw [hm, List.mem_cons, ih]
      constructor
      · rintro (h1 | ⟨p, hp, h1, h2⟩)
        · exact ⟨0, by simp, by simpa using h1.symm, by simpa using hgc⟩
        · exact ⟨p + 1, by simp only [List.length_cons]; omega,
            by simpa using h1, by simpa using h2⟩
      · rintro ⟨p, hp, h1, h2⟩
        cases p with
        | zero => exact Or.inl (by simpa using h1.symm)
        | succ p =>
          exact Or.inr ⟨p, by simp only [List.length_cons] at hp; omega,
            by simpa using h1, by simpa using h2⟩

theorem refPass2_length : ∀ (fb : List (Option Char)) (ms : List Char),
    (refPass2 fb ms).length = fb.length
  | [], _ => rfl
  | none :: rest, ms => by simp [refPass2, refPass2_length rest ms]
  | some gc :: rest, ms => by
    by_cases hm : gc ∈ ms <;> simp [refPass2, hm, refPass2_length rest]

theorem refScore_length (h g : String) (hld : h.data.length = g.data.length) :
    (refScore h g).length = g.length := by
  show (refScore h g).data.length = g.data.length
  rw [refScore, refPass1_eq _ _ hld]
  show (refPass2 (mark1 h.data g.data) (msOf h.data g.data)).length = g.data.length
  rw [refPass2_length, mark1, List.length_zipWith, hld, Nat.min_self]

theorem mark1_getD : ∀ (h g : List Char) (i : Nat), i < h.length → i < g.length →
    (mark1 h g).getD i none =
      if g.getD i blank = h.getD i blank then none else some (g.getD i blank)
  | [], _, i, hi, _ => by simp at hi
  | _ :: _, [], i, _, hi => by simp at hi
  | hc :: hs, gc :: gs, 0, _, _ => by simp [mark1]
  | hc :: hs, gc :: gs, i + 1, hi, hig => by
    simp only [mark1, List.zipWith_cons_cons, List.getD_cons_succ]
    exact mark1_getD hs gs i (by simpa using hi) (by simpa using hig)

theorem refScore_char (h g : String) (n : Nat) (hh : h.length = n) (hg : g.length = n)
    (hnd : g.data.Nodup) (i : Nat) (hi : i < n) :
    charAt (refScore h g) i =
      if charAt g i = charAt h i then 'G'
      else if charAt g i ∈ msOf h.data g.data then 'Y' else 'K' := by
  have hhd : h.data.length = n := hh
  have hgd : g.data.length = n := hg
  have hld : h.data.length = g.data.length := by omega
  have hnd2 : ((mark1 h.data g.data).filterMap id).Nodup :=
    List.Nodup.sublist (mark1_filterMap_sublist h.data g.data) hnd
  have hlm : i < (mark1 h.data g.data).length := by
    simp only [mark1, List.length_zipWith]
    omega
  show (refScore h g).data.getD i blank = _
  rw [refScore, refPass1_eq _ _ hld]
  show (refPass2 (mark1 h.data g.data) (msOf h.data g.data)).getD i blank = _
  rw [refPass2_nodup _ _ hnd2,
    List.getD_eq_getElem _ _ (by rw [List.length_map]; exact hlm),
    List.getElem_map, ← List.getD_eq_getElem (mark1 h.data g.data) none hlm,
    mark1_getD h.data g.data i (by omega) (by omega)]
  simp only [charAt]
  by_cases hm : g.data.getD i blank = h.data.getD i blank
  · rw [if_pos hm, if_pos hm]
  · rw [if_neg hm, if_neg hm]

/-!
## Green maps and de-greened words (towards C1)
-/

theorem lookup_append : ∀ (l : List (Nat × Char)) (i : Nat) (c : Char) (p : Nat),
    (l ++ [(i, c)]).lookup p =
      match l.lookup p with
      | some d => some d
      | none => if p == i then some c else none
  | [], i, c, p => by
    show List.lookup p [(i, c)] = _
    rw [List.lookup]
    cases hpi : p == i <;> simp [List.lookup, hpi]
  | (k, v) :: l, i, c, p => by
    rw [List.cons_append]
    show List.lookup p ((k, v) :: (l ++ [(i, c)])) = _
    rw [List.lookup, List.lookup]
    cases hpk : p == k with
    | true => rfl
    | false => exact lookup_append l i c p

theorem lookup_append_some {l : List (Nat × Char)} {p : Nat} {d : Char} (i : Nat) (c : Char)
    (h : l.lookup p = some d) : (l ++ [(i, c)]).lookup p = some d := by
  rw [lookup_append, h]

theorem lookup_append_self {l : List (Nat × Char)} (i : Nat) (c : Char)
    (h : l.lookup i = none) : (l ++ [(i, c)]).lookup i = some c := by
  rw [lookup_append, h]
  simp

theorem lookup_append_other {l : List (Nat × Char)} {p i : Nat} (c : Char) (hne : p ≠ i) :
    (l ++ [(i, c)]).lookup p = l.lookup p := by
  rw [lookup_append]
  cases hl : l.lookup p with
  | some d => rfl
  | none => simp [hne]

theorem lookup_append_inv {l : List (Nat × Char)} {i : Nat} {c : Char} {p : Nat} {d : Char}
    (h : (l ++ [(i, c)]).lookup p = some d) :
    l.lookup p = some d ∨ (l.lookup p = none ∧ p = i ∧ d = c) := by
  rw [lookup_append] at h
  cases hl : l.lookup p with
  | some e =>
    rw [hl] at h
    exact Or.inl h
  | none =>
    rw [hl] at h
    cases hpi : p == i with
    | true =>
      rw [hpi] at h
      have hpieq : p = i := by simpa using hpi
      exact Or.inr ⟨rfl, hpieq, (Option.some_inj.mp (by simpa using h)).symm⟩
    | false =>
      rw [hpi] at h
      simp at h

theorem maskList_length (green : List (Nat × Char)) :
    ∀ (l : List Char) (p : Nat), (maskList green l p).length = l.length
  | [], _ => rfl
  | c :: cs, p => by simp [maskList, maskList_length green cs (p + 1)]

theorem maskList_nil_green : ∀ (l : List Char) (p : Nat), maskList [] l p = l
  | [], _ => rfl
  | c :: cs, p => by simp [maskList, List.lookup, maskList_nil_green cs (p + 1)]

theorem mem_maskList {green : List (Nat × Char)} {x : Char} (hx : x ≠ blank) :
    ∀ (l : List Char) (p : Nat),
      (x ∈ maskList green l p ↔
        ∃ k, k < l.length ∧ green.lookup (p + k) = none ∧ l.getD k blank = x)
  | [], p => by simp [maskList]
  | c :: cs, p => by
    rw [maskList, List.mem_cons]
    constructor
    · rintro (h1 | h1)
      · by_cases hg : (green.lookup p).isSome
        · rw [if_pos hg] at h1
          exact absurd h1 hx
        · rw [if_neg hg] at h1
          refine ⟨0, by simp, ?_, by simpa using h1.symm⟩
          rw [Nat.add_zero]
          exact Option.not_isSome_iff_eq_none.mp hg
      · obtain ⟨k, hk, hg, he⟩ := (mem_maskList hx cs (p + 1)).mp h1
        refine ⟨k + 1, by simp only [List.length_cons]; omega, ?_, by simpa using he⟩
        rw [show p + (k + 1) = p + 1 + k by omega]
        exact hg
    · rintro ⟨k, hk, hg, he⟩
      cases k with
      | zero =>
        left
        rw [Nat.add_zero] at hg
        rw [if_neg (by rw [hg]; simp)]
        simpa using he.symm
      | succ k =>
        right
        refine (mem_maskList hx cs (p + 1)).mpr
          ⟨k, by simp only [List.length_cons] at hk; omega, ?_, by simpa using he⟩
        rw [show p + 1 + k = p + (k + 1) by omega]
        exact hg

theorem maskList_congr {g1 g2 : List (Nat × Char)} :
    ∀ (l : List Char) (p : Nat),
      (∀ q, p ≤ q → q < p + l.length → (g1.lookup q).isSome = (g2.lookup q).isSome) →
      maskList g1 l p = maskList g2 l p
  | [], _, _ => rfl
  | c :: cs, p, h => by
    rw [maskList, maskList, h p (le_refl p) (by simp only [List.length_cons]; omega),
      maskList_congr cs (p + 1)
        (fun q hq1 hq2 => h q (by omega) (by simp only [List.length_cons]; omega))]

theorem maskList_slice (green : List (Nat × Char)) (c : Char) :
    ∀ (l : List Char) (p i : Nat), i < l.length →
      (maskList green l p).take i ++ [blank] ++ (maskList green l p).drop (i + 1) =
        maskList (green ++ [(p + i, c)]) l p
  | [], _, i, hi => by simp at hi
  | d :: cs, p, 0, _ => by
    have hhead : ((green ++ [(p, c)]).lookup p).isSome = true := by
      rw [lookup_append]
      cases hl : green.lookup p with
      | some e => rfl
      | none => simp
    have htail : maskList green cs (p + 1) = maskList (green ++ [(p, c)]) cs (p + 1) :=
      maskList_congr cs (p + 1) (fun q hq1 hq2 => by
        rw [lookup_append_other c (by omega)])
    simp only [Nat.add_zero, maskList, List.take_zero, List.nil_append,
      List.drop_succ_cons, List.drop_zero, hhead, if_true, List.cons_append]
    exact congrArg (List.cons blank) htail
  | d :: cs, p, i + 1, hi => by
    rw [maskList, maskList]
    rw [List.take_succ_cons, List.drop_succ_cons]
    have ih := maskList_slice green c cs (p + 1) i (by simp only [List.length_cons] at hi; omega)
    rw [show p + (i + 1) = p + 1 + i by omega]
    rw [List.cons_append, List.cons_append]
    rw [ih]
    rw [lookup_append_other c (by omega)]

theorem maskG_slice (green : List (Nat × Char)) (w : String) (i : Nat) (c : Char)
    (hi : i < w.length) : sliceReplaceBlank (maskG green w) i = maskG (green ++ [(i, c)]) w := by
  rw [sliceReplaceBlank, maskG, maskG]
  show String.mk
      ((maskList green w.data 0).take i ++ [blank] ++ (maskList green w.data 0).drop (i + 1)) = _
  rw [maskList_slice green c w.data 0 i hi, Nat.zero_add]

theorem string_mk_data (s : String) : String.mk s.data = s := by
  cases s
  rfl

/-!
## Single-position soundness of the filtering loop (towards C1)
-/

theorem nodup_charAt_inj {g : String} {n : Nat} (hg : g.length = n) (hnd : g.data.Nodup)
    {j k : Nat} (hj : j < n) (hk : k < n) (hjk : charAt g j = charAt g k) : j = k := by
  have hj' : j < g.data.length := by rw [length_data, hg]; exact hj
  have hk' : k < g.data.length := by rw [length_data, hg]; exact hk
  have h1 : g.data.get ⟨j, hj'⟩ = g.data.get ⟨k, hk'⟩ := by
    have e1 : g.data.get ⟨j, hj'⟩ = charAt g j := by
      rw [charAt, List.getD_eq_getElem g.data blank hj']
      rfl
    have e2 : g.data.get ⟨k, hk'⟩ = charAt g k := by
      rw [charAt, List.getD_eq_getElem g.data blank hk']
      rfl
    rw [e1, e2, hjk]
  have := (List.Nodup.get_inj_iff hnd).mp h1
  exact congrArg Fin.val this

/-- One position of the filtering loop preserves the soundness invariant when
the feedback is (pointwise) the scorer's output for the hidden word and the
guess has no repeated letters. -/
theorem loadStep_sound (h g f : String) (n : Nat)
    (hh : h.length = n) (hg : g.length = n)
    (hlg : lowerWord g) (hnd : g.data.Nodup)
    (hfc : ∀ j, j < n → charAt f j =
      if charAt g j = charAt h j then 'G'
      else if charAt g j ∈ msOf h.data g.data then 'Y' else 'K')
    (i : Nat) (hi : i < n) (st : SolverState) (hinv : C1Inv h g n st) :
    C1Inv h g n (loadStep g f st i) := by
  obtain ⟨⟨e, he, hew, hen⟩, hgreen⟩ := hinv
  have hhd : h.data.length = n := hh
  have hgd : g.data.length = n := hg
  have hgib : lowerChar (charAt g i) := charAt_lower hlg (by rw [hg]; exact hi)
  have hgibl : charAt g i ≠ blank := lowerChar_ne_blank hgib
  simp only [loadStep]
  by_cases hgi : (st.green.lookup i).isSome
  · rw [if_pos hgi]
    exact ⟨⟨e, he, hew, hen⟩, hgreen⟩
  · rw [if_neg hgi]
    have hfi := hfc i hi
    have hlci : letterCol st.green e i = charAt h i := by
      rw [letterCol, if_neg hgi, hew]
    by_cases hmatch : charAt g i = charAt h i
    · -- feedback 'G': lock the position and de-green it
      rw [hfi, if_pos hmatch, if_pos rfl]
      constructor
      · refine ⟨{ e with ngw := sliceReplaceBlank e.ngw i }, ?_, ?_, ?_⟩
        · exact List.mem_map_of_mem _
            (List.mem_filter.mpr ⟨he, by rw [hlci, hmatch]; simp⟩)
        · exact hew
        · show sliceReplaceBlank e.ngw i = _
          rw [hen, maskG_slice st.green h i (charAt g i) (by rw [hh]; exact hi)]
      · intro p c hp
        rcases lookup_append_inv hp with hold | ⟨-, hpi, hc⟩
        · exact hgreen p c hold
        · subst hpi
          subst hc
          exact ⟨hi, hmatch.symm, rfl⟩
    · by_cases hmem : charAt g i ∈ msOf h.data g.data
      · -- feedback 'Y': the hidden word contains the letter outside greens
        rw [hfi, if_neg hmatch, if_pos hmem, if_neg (by decide), if_neg (by decide)]
        obtain ⟨p, hp, hhp, hgp⟩ := (msOf_mem_iff h.data g.data (by omega) _).mp hmem
        have hpn : p < n := by omega
        have hplook : st.green.lookup p = none := by
          cases hlk : st.green.lookup p with
          | none => rfl
          | some c =>
            obtain ⟨-, hhc, hgc⟩ := hgreen p c hlk
            exact absurd (hgc.trans hhc.symm) hgp
        have hmem2 : charAt g i ∈ e.ngw.data := by
          rw [hen]
          show charAt g i ∈ maskList st.green h.data 0
          refine (mem_maskList hgibl h.data 0).mpr ⟨p, hp, ?_, hhp⟩
          rw [Nat.zero_add]
          exact hplook
        constructor
        · refine ⟨e, ?_, hew, hen⟩
          refine List.mem_filter.mpr ⟨he, ?_⟩
          have hb1 : e.ngw.data.contains (charAt g i) = true := by
            simpa using hmem2
          have hb2 : (letterCol st.green e i != charAt g i) = true := by
            rw [hlci]
            exact bne_iff_ne.mpr (fun hx => hmatch hx.symm)
          rw [hb1, hb2]
          rfl
        · exact hgreen
      · -- feedback 'K': the letter does not occur in the de-greened hidden word
        rw [hfi, if_neg hmatch, if_neg hmem, if_neg (by decide), if_pos rfl]
        have hnotin : charAt g i ∉ e.ngw.data := by
          rw [hen]
          show charAt g i ∉ maskList st.green h.data 0
          intro hcontra
          obtain ⟨k, hk, hglk, hdk⟩ := (mem_maskList hgibl h.data 0).mp hcontra
          have hkn : k < n := by omega
          by_cases hmk : charAt g k = charAt h k
          · have : charAt g k = charAt g i := by
              rw [hmk]
              exact hdk
            have hki : k = i := nodup_charAt_inj hg hnd hkn hi this
            subst hki
            exact hmatch (hmk ▸ this)
          · exact hmem ((msOf_mem_iff h.data g.data (by omega) _).mpr ⟨k, hk, hdk, hmk⟩)
        constructor
        · refine ⟨e, ?_, hew, hen⟩
          refine List.mem_filter.mpr ⟨he, ?_⟩
          have : e.ngw.data.contains (charAt g i) = false := by
            simpa using hnotin
          rw [this]
          rfl
        · exact hgreen

/-- Witness for C10 on a concrete exhausted simulator. -/
theorem claim_C10_witness :
    ∃ st', simGuess
        { word := "ratio", nGuesses := 7, maxGuesses := 6, results := ["YYYKK"],
          unicodeResults := [], alphaBlocksResults := [], done := true } "arise" =
        some (st', "XXXXX") ∧
      st'.results = ["YYYKK"] ∧ st'.unicodeResults = [] ∧ st'.alphaBlocksResults = [] ∧
      st'.nGuesses = 8 ∧ ("XXXXX" : String).length = 5 :=
  claim_C10
    { word := "ratio", nGuesses := 7, maxGuesses := 6, results := ["YYYKK"],
      unicodeResults := [], alphaBlocksResults := [], done := true } "arise" (by decide)

/-!
## Whole-call and whole-sequence soundness, and claim C1
-/

theorem loadLoop_sound (h g f : String) (n : Nat)
    (hh : h.length = n) (hg : g.length = n) (hlg : lowerWord g) (hnd : g.data.Nodup)
    (hfc : ∀ j, j < n → charAt f j =
      if charAt g j = charAt h j then 'G'
      else if charAt g j ∈ msOf h.data g.data then 'Y' else 'K') :
    ∀ (ps : List Nat), (∀ j ∈ ps, j < n) → ∀ st : SolverState, C1Inv h g n st →
      C1Inv h g n (ps.foldl (loadStep g f) st)
  | [], _, _, hinv => hinv
  | i :: ps, hps, st, hinv => by
    have h1 := loadStep_sound h g f n hh hg hlg hnd hfc i
      (hps i (List.mem_cons_self _ _)) st hinv
    exact loadLoop_sound h g f n hh hg hlg hnd hfc ps
      (fun j hj => hps j (List.mem_cons_of_mem _ hj)) _ h1

/-- A whole `load_result` call with the scorer's feedback preserves the
soundness invariant, provided the guess has no repeated letters. -/
theorem loadResult_sound (h g : String) (n : Nat)
    (hh : h.length = n) (hg : g.length = n) (hlg : lowerWord g)
    (hnd : g.data.Nodup) (st : SolverState) (hinv : C1Inv h g n st) :
    C1Inv h g n (loadResult st g (refScore h g)) := by
  have hld : h.data.length = g.data.length := by rw [length_data, length_data, hh, hg]
  have hflen : (refScore h g).length = n := by rw [refScore_length h g hld, hg]
  have hfc : ∀ j, j < n → charAt (refScore h g) j =
      if charAt g j = charAt h j then 'G'
      else if charAt g j ∈ msOf h.data g.data then 'Y' else 'K' :=
    fun j hj => refScore_char h g n hh hg hnd j hj
  rw [loadResult]
  apply loadLoop_sound h g (refScore h g) n hh hg hlg hnd hfc
  · intro j hj
    rw [List.mem_range] at hj
    rw [hflen, hg] at hj
    omega
  · obtain ⟨hpool, hgreen⟩ := hinv
    exact ⟨hpool, hgreen⟩

/-- Soundness over a whole consistent sequence of guesses: duplicate-free
guesses that each repeat every position at which any earlier guess matched
the hidden word (the `Pairwise` hypothesis) never filter the hidden word
out. -/
theorem applyPairs_sound (h : String) (n : Nat) (hh : h.length = n) (hlh : lowerWord h) :
    ∀ (gs : List (String × String)) (st : SolverState),
      (∀ gf ∈ gs, gf.1.length = n ∧ lowerWord gf.1 ∧ gf.1.data.Nodup ∧
        wsResult h gf.1 = some gf.2) →
      List.Pairwise
        (fun a b => ∀ p, p < n → charAt a.1 p = charAt h p → charAt b.1 p = charAt h p) gs →
      (∃ e ∈ st.pool, e.word = h ∧ e.ngw = maskG st.green h) →
      (∀ p c, st.green.lookup p = some c →
        p < n ∧ charAt h p = c ∧ ∀ gf ∈ gs, charAt gf.1 p = c) →
      ∃ e ∈ (applyPairs st gs).pool, e.word = h ∧
        e.ngw = maskG (applyPairs st gs).green h
  | [], _, _, _, hpool, _ => hpool
  | gf :: rest, st, hall, hpw, hpool, hgreen => by
    obtain ⟨hglen, hglow, hgnd, hgws⟩ := hall gf (List.mem_cons_self _ _)
    have hfeq : gf.2 = refScore h gf.1 := by
      have hws := wsResult_eq_refScore h gf.1 (by rw [hh, hglen]) hlh hglow
      exact Option.some_inj.mp (hgws.symm.trans hws)
    have hinv : C1Inv h gf.1 n st := by
      refine ⟨hpool, fun p c hp => ?_⟩
      obtain ⟨hpn, hhc, hforall⟩ := hgreen p c hp
      exact ⟨hpn, hhc, hforall gf (List.mem_cons_self _ _)⟩
    have hstep := loadResult_sound h gf.1 n hh hglen hglow hgnd st hinv
    obtain ⟨hpw1, hpwrest⟩ := List.pairwise_cons.mp hpw
    show ∃ e ∈ (applyPairs (loadResult st gf.1 gf.2) rest).pool,
      e.word = h ∧ e.ngw = maskG (applyPairs (loadResult st gf.1 gf.2) rest).green h
    rw [hfeq]
    exact applyPairs_sound h n hh hlh rest (loadResult st gf.1 (refScore h gf.1))
      (fun gf' hgf' => hall gf' (List.mem_cons_of_mem _ hgf'))
      hpwrest
      hstep.1
      (fun p c hp => by
        obtain ⟨hpn, hhc, hgc⟩ := hstep.2 p c hp
        refine ⟨hpn, hhc, fun gf' hgf' => ?_⟩
        have := hpw1 gf' hgf' p hpn (hgc.trans hhc.symm)
        rw [this, hhc])

/-- Claim C1 counterexample: the hidden word is filtered out of the pool by
scorer-consistent feedback.  First conjunct pair: hidden `"ax"`, pool
`{ax}`, the repeated-letter guess `"xx"` scores `"KG"` and one `load_result`
call empties the pool.  Remaining conjuncts: hidden `"ab"`, pool `{ab}`, the
duplicate-free consistent guesses `"ac"` (scored `"GK"`) and `"ba"` (scored
`"YY"`) empty the pool in two calls — the second guess drops the locked green
`a`, and the yellow check `'a' ∈ no_green_word` fails on the de-greened
`"_b"`. -/
theorem claim_C1_counterexample :
    (wsResult "ax" "xx" = some "KG" ∧
      (loadResult (resetState ["ax"]) "xx" "KG").pool = []) ∧
      (wsResult "ab" "ac" = some "GK" ∧ wsResult "ab" "ba" = some "YY" ∧
        ("ac" : String).data.Nodup ∧ ("ba" : String).data.Nodup ∧
        (applyPairs (resetState ["ab"]) [("ac", "GK"), ("ba", "YY")]).pool = []) := by
  exact ⟨⟨by decide, by decide⟩, by decide, by decide, by decide, by decide, by decide⟩

/-- Claim C1 (corrected): filtering soundness does not hold for arbitrary
scorer-consistent (guess, feedback) pairs — it holds under two additional
conditions on the guess sequence: every guess is duplicate-free (no repeated
letters — an assumption on the words played, since the bank does contain
repeated-letter words), and every later guess repeats each position at which
an earlier guess matched the hidden word (hard-mode guesses drawn from the
filtered pool always do, because the pool retains only words matching the
locked greens).  Under those conditions the hidden word, starting from a
fresh pool containing it, is still a member after every `load_result` call
of the sequence. -/
theorem claim_C1_amended (h : String) (n : Nat) (ws : List String)
    (gs : List (String × String))
    (hh : h.length = n) (hlh : lowerWord h) (hmem : h ∈ ws)
    (hall : ∀ gf ∈ gs, gf.1.length = n ∧ lowerWord gf.1 ∧ gf.1.data.Nodup ∧
      wsResult h gf.1 = some gf.2)
    (hpw : List.Pairwise
      (fun a b => ∀ p, p < n → charAt a.1 p = charAt h p → charAt b.1 p = charAt h p) gs)
    (m : Nat) :
    ∃ e ∈ (applyPairs (resetState ws) (gs.take m)).pool, e.word = h := by
  have hres := applyPairs_sound h n hh hlh (gs.take m) (resetState ws)
    (fun gf hgf => hall gf (List.take_subset m gs hgf))
    (List.Pairwise.sublist (List.take_sublist m gs) hpw)
    (by
      refine ⟨{ word := h, ngw := h }, List.mem_map_of_mem _ hmem, rfl, ?_⟩
      show h = maskG [] h
      rw [maskG, maskList_nil_green, string_mk_data])
    (by
      intro p c hp
      simp [resetState, List.lookup] at hp)
  obtain ⟨e, he, hew, -⟩ := hres
  exact ⟨e, he, hew⟩

/-- Witness for C1's amended statement: hidden `"ab"` in the pool `{ab, ba}`,
consistent duplicate-free guesses `"ba"` then `"ab"`; the hidden word
survives both calls. -/
theorem claim_C1_witness :
    ∃ e ∈ (applyPairs (resetState ["ab", "ba"])
        (([(("ba" : String), ("YY" : String)),
          (("ab" : String), ("GG" : String))]).take 2)).pool, e.word = "ab" :=
  claim_C1_amended "ab" 2 ["ab", "ba"] [("ba", "YY"), ("ab", "GG")]
    (by decide) (by decide) (by decide) (by decide)
    (by
      constructor
      · intro gf hgf p hp h1
        have hgf2 : gf = (("ab" : String), ("GG" : String)) := by simpa using hgf
        subst hgf2
        interval_cases p <;> revert h1 <;> decide
      · constructor
        · intro gf hgf
          simp at hgf
        · exact List.Pairwise.nil)
    2

end Swordle
